import Mathlib

/-!
Verification of `src/pi.py` (`calculate_pi_ramanujan`).

The Python function computes π by Ramanujan's series using the `decimal`
module: it sets the process-wide context precision to `precision + 10`
significant digits, sums `iterations` terms of the series, takes the
reciprocal and quantizes the result to `precision` fractional digits.

Shallow embedding: `decimal` values are modelled by their exact rational
value (`ℚ`); every arithmetic operation of the `decimal` context computes
the exact rational result and rounds it to `p` significant digits with
round-half-even, which is the value semantics of Python's `decimal`
operations under the default `ROUND_HALF_EVEN` rounding (an exact result
that fits in `p` digits is returned unchanged, and rounding a value that
already fits is the identity, so working with values loses nothing).
The unbounded ideal-exponent arithmetic of the General Decimal
Arithmetic specification is modelled; the `Emin`/`Emax` exponent limits
of CPython's default context (±999999) are not.  The final `quantize`
carries an explicit coefficient/exponent pair so that statements about
the exponent of the result (trailing zeros) can be made.
-/

namespace PiSrc

set_option maxRecDepth 100000
/-- Round-half-even of a rational to an integer: nearest integer, ties to
the even neighbour.  This is `ROUND_HALF_EVEN`, the default rounding of
Python's `decimal` context, which `src/pi.py` never changes. -/
def rne (q : ℚ) : ℤ :=
  if q - ⌊q⌋ < 1 / 2 then ⌊q⌋
  else if 1 / 2 < q - ⌊q⌋ then ⌊q⌋ + 1
  else if 2 ∣ ⌊q⌋ then ⌊q⌋ else ⌊q⌋ + 1

/-- Fuel-driven decimal digit count of a natural number (fuel-recursive so
that it evaluates inside the kernel). -/
def natLenAux : ℕ → ℕ → ℕ
  | 0, _ => 0
  | f + 1, n => if n < 10 then 1 else natLenAux f (n / 10) + 1

/-- Number of decimal digits of a natural number (`natLen 0 = 0` is never
used: it is only applied to positive numerators/denominators). -/
def natLen (n : ℕ) : ℕ := natLenAux n n

/-- Largest power-of-ten exponent below a positive rational:
`10 ^ ilog10 q ≤ q < 10 ^ (ilog10 q + 1)`. -/
def ilog10 (q : ℚ) : ℤ :=
  if (10 : ℚ) ^ ((natLen q.num.natAbs : ℤ) - natLen q.den) ≤ q then
    (natLen q.num.natAbs : ℤ) - natLen q.den
  else (natLen q.num.natAbs : ℤ) - natLen q.den - 1

/-- Rounding of a positive rational to `p` significant decimal digits with
round-half-even: scale so that the integer part has `p` digits, round to an
integer, scale back. -/
def roundSigPos (p : ℕ) (q : ℚ) : ℚ :=
  (rne (q * 10 ^ ((p : ℤ) - 1 - ilog10 q)) : ℚ) * 10 ^ (ilog10 q + 1 - (p : ℤ))

/-- Value-level rounding of an exact rational result to `p` significant
digits, the semantics of every `decimal` context operation of `src/pi.py`
(`+`, `*`, `/`, `**`, `sqrt`) under `ROUND_HALF_EVEN`: a result that fits
in `p` digits is unchanged, a longer one is rounded half-even. -/
def roundSig (p : ℕ) (q : ℚ) : ℚ :=
  if q = 0 then 0
  else if q < 0 then -roundSigPos p (-q) else roundSigPos p q

/-- Newton iteration for the integer square root, fuel-recursive so that the
kernel can evaluate it (Lean core `Nat.sqrt` is defined by well-founded
recursion and does not reduce). -/
def isqrtAux (n : ℕ) : ℕ → ℕ → ℕ
  | 0, x => x
  | f + 1, x => if (x + n / x) / 2 < x then isqrtAux n f ((x + n / x) / 2) else x

def isqrt (n : ℕ) : ℕ := if n ≤ 1 then n else isqrtAux n n (n / 2 + 1)

/-- Coefficient of `Decimal(2).sqrt()` at context precision `p`: the nearest
integer to `√2 · 10^(p-1)` (no ties are possible since that number is
irrational, so round-half-even is plain rounding to nearest; `decimal`'s
square root is correctly rounded with `ROUND_HALF_EVEN`). -/
def sqrt2_coeff (p : ℕ) : ℕ :=
  if (2 * isqrt (2 * 10 ^ (2 * p - 2)) + 1) ^ 2 ≤ 8 * 10 ^ (2 * p - 2) then
    isqrt (2 * 10 ^ (2 * p - 2)) + 1
  else isqrt (2 * 10 ^ (2 * p - 2))

/-- Value of `Decimal(2).sqrt()` at context precision `p`. -/
def sqrt2 (p : ℕ) : ℚ := (sqrt2_coeff p : ℚ) * 10 ^ (1 - (p : ℤ))

/-- `Decimal` multiplication at context precision `p`. -/
def mulD (p : ℕ) (x y : ℚ) : ℚ := roundSig p (x * y)

/-- `Decimal` addition at context precision `p`. -/
def addD (p : ℕ) (x y : ℚ) : ℚ := roundSig p (x + y)

/-- `Decimal` division at context precision `p`.  Python raises
`DivisionByZero` on a zero divisor; the call sites in the embedding of
`calculate_pi_ramanujan` guard every division with the corresponding
explicit zero test, so this total function is only reached with a nonzero
divisor. -/
def divD (p : ℕ) (x y : ℚ) : ℚ := roundSig p (x / y)

/-- `Decimal` power with a natural exponent at context precision `p`
(exact integer exponentiation, rounded to the context precision — the
value semantics of `Decimal.__pow__` with an integral exponent). -/
def powD (p : ℕ) (b : ℚ) (n : ℕ) : ℚ := roundSig p (b ^ n)

/-- `constant_multiplier = (Decimal(2) * Decimal(2).sqrt()) / Decimal(9801)`
(src/pi.py line 27). -/
def constant_multiplier (p : ℕ) : ℚ := divD p (mulD p 2 (sqrt2 p)) 9801

/-- `numerator_term = Decimal(math.factorial(4*k)) * Decimal(1103 + 26390*k)`
(src/pi.py lines 32-34); the `Decimal(int)` constructor is exact. -/
def numerator_term (p k : ℕ) : ℚ :=
  mulD p ((Nat.factorial (4 * k) : ℕ) : ℚ) (((1103 + 26390 * k : ℕ) : ℕ) : ℚ)

/-- `denominator_term = Decimal(math.factorial(k))**4 * Decimal(396)**(4*k)`
(src/pi.py lines 37-39). -/
def denominator_term (p k : ℕ) : ℚ :=
  mulD p (powD p ((Nat.factorial k : ℕ) : ℚ) 4) (powD p 396 (4 * k))

/-- `current_term = numerator_term / denominator_term` (src/pi.py line 42). -/
def current_term (p k : ℕ) : ℚ :=
  divD p (numerator_term p k) (denominator_term p k)

/-- The running sum after the loop `for k in range(n)` (src/pi.py
lines 23, 30-43), ignoring the impossible division-by-zero branch. -/
def sum_val (p n : ℕ) : ℚ :=
  (List.range n).foldl (fun s k => addD p s (current_term p k)) 0

/-- `one_over_pi = constant_multiplier * sum_val` (src/pi.py line 46). -/
def one_over_pi (p n : ℕ) : ℚ := mulD p (constant_multiplier p) (sum_val p n)

/-- `pi_approx = Decimal(1) / one_over_pi` (src/pi.py line 47). -/
def pi_approx (p n : ℕ) : ℚ := divD p 1 (one_over_pi p n)

/-- A returned `Decimal` value: integer coefficient (with sign) and decimal
exponent, value `man · 10 ^ exp`.  The exponent of the result of
`quantize(Decimal('1e-precision'))` is `-precision`, which records the
trailing zeros the rational value alone would lose. -/
structure Dec where
  man : ℤ
  exp : ℤ
deriving DecidableEq

/-- The exceptions the modelled fragment of Python `decimal` can raise. -/
inductive PyExc where
  /-- `decimal.DivisionByZero` -/
  | DivisionByZero
  /-- `decimal.InvalidOperation` (quantize result needs more than `prec` digits) -/
  | InvalidOperation
  /-- `ValueError` from `getcontext().prec = n` with `n < 1` -/
  | InvalidContextPrec
deriving DecidableEq

/-- `pi_approx.quantize(Decimal('1e-precision'))` (src/pi.py line 50) under
the context rounding `ROUND_HALF_EVEN`: round the value at exponent
`-precision`; raise `InvalidOperation` when the resulting coefficient needs
more than `prec` digits. -/
def quantD (p : ℕ) (prec : ℤ) (q : ℚ) : Except PyExc Dec :=
  if 10 ^ p ≤ (rne (q * 10 ^ prec)).natAbs then .error .InvalidOperation
  else .ok ⟨rne (q * 10 ^ prec), -prec⟩

/-- The summation loop of src/pi.py lines 30-43, with the division-by-zero
check Python performs at `numerator_term / denominator_term`. -/
def sum_loop (p : ℕ) : List ℕ → ℚ → Except PyExc ℚ
  | [], s => .ok s
  | k :: ks, s =>
    if denominator_term p k = 0 then .error .DivisionByZero
    else sum_loop p ks (addD p s (current_term p k))

/-- Shallow embedding of `calculate_pi_ramanujan(iterations, precision)`
(src/pi.py lines 4-50).  The context precision is `precision + 10`
(line 21; assigning a value `< 1` to `getcontext().prec` raises
`ValueError`).  `range(iterations)` for a non-positive argument is empty,
which is what `Int.toNat` gives.  `Decimal(1) / one_over_pi` raises
`DivisionByZero` on a zero divisor (line 47). -/
def calculate_pi_ramanujan (iterations precision : ℤ) : Except PyExc Dec :=
  if precision + 10 ≤ 0 then .error .InvalidContextPrec
  else
    match sum_loop (precision + 10).toNat (List.range iterations.toNat) 0 with
    | .error e => .error e
    | .ok s =>
      if mulD (precision + 10).toNat (constant_multiplier (precision + 10).toNat) s = 0 then
        .error .DivisionByZero
      else
        quantD (precision + 10).toNat precision
          (divD (precision + 10).toNat 1
            (mulD (precision + 10).toNat (constant_multiplier (precision + 10).toNat) s))

/-- `calculate_pi_ramanujan` together with the process-wide decimal context
precision (`getcontext().prec`), threaded as explicit state: the function
assigns `precision + 10` to it at entry (src/pi.py line 21) and never
restores it.  A failing assignment (`precision + 10 < 1`) leaves the old
value in place. -/
def calculate_pi_ramanujan_st (prec0 : ℤ) (iterations precision : ℤ) :
    Except PyExc Dec × ℤ :=
  if precision + 10 ≤ 0 then (.error .InvalidContextPrec, prec0)
  else (calculate_pi_ramanujan iterations precision, precision + 10)

/-- The reference computation of claim C1, following the spec's words
(§4.1): numerator `(4k)!·(1103+26390k)` and denominator `(k!)^4·396^(4k)`
as exact integers, one decimal division per term at the working precision. -/
def spec_term (p k : ℕ) : ℚ :=
  divD p ((Nat.factorial (4 * k) * (1103 + 26390 * k) : ℕ) : ℚ)
    ((Nat.factorial k ^ 4 * 396 ^ (4 * k) : ℕ) : ℚ)

/-- Reference running sum of claim C1's description. -/
def spec_sum (p n : ℕ) : ℚ :=
  (List.range n).foldl (fun s k => addD p s (spec_term p k)) 0

/-- Reference computation of claim C1: as `calculate_pi_ramanujan`, but with
each series term formed from exact-integer numerator and denominator and a
single decimal division (working precision `precision + 10`), then the
reciprocal of `C · sum`, rounded to `precision` fractional digits. -/
def spec_calculate (iterations precision : ℤ) : Except PyExc Dec :=
  if precision + 10 ≤ 0 then .error .InvalidContextPrec
  else
    if mulD (precision + 10).toNat (constant_multiplier (precision + 10).toNat)
        (spec_sum (precision + 10).toNat iterations.toNat) = 0 then
      .error .DivisionByZero
    else
      quantD (precision + 10).toNat precision
        (divD (precision + 10).toNat 1
          (mulD (precision + 10).toNat (constant_multiplier (precision + 10).toNat)
            (spec_sum (precision + 10).toNat iterations.toNat)))

/-- Whether a call returned normally (no exception). -/
def returns_ok : Except PyExc Dec → Bool
  | .ok _ => true
  | .error _ => false

theorem rne_intCast (n : ℤ) : rne (n : ℚ) = n := by
  simp [rne]

theorem rne_zero : rne 0 = 0 := by
  simpa using rne_intCast 0

theorem floor_le_rne (q : ℚ) : ⌊q⌋ ≤ rne q := by
  unfold rne; split_ifs <;> omega

theorem rne_le_floor_add_one (q : ℚ) : rne q ≤ ⌊q⌋ + 1 := by
  unfold rne; split_ifs <;> omega

theorem rne_mono {q r : ℚ} (h : q ≤ r) : rne q ≤ rne r := by
  rcases lt_or_le ⌊q⌋ ⌊r⌋ with hf | hf
  · calc rne q ≤ ⌊q⌋ + 1 := rne_le_floor_add_one q
    _ ≤ ⌊r⌋ := by omega
    _ ≤ rne r := floor_le_rne r
  · have heq : ⌊q⌋ = ⌊r⌋ := le_antisymm (Int.floor_le_floor h) hf
    have hd : q - (⌊q⌋ : ℚ) ≤ r - (⌊r⌋ : ℚ) := by
      rw [heq]; linarith
    unfold rne
    rw [heq] at hd ⊢
    split_ifs <;> first | omega | linarith

theorem rne_nonneg {q : ℚ} (h : 0 ≤ q) : 0 ≤ rne q := by
  have := rne_mono (show (((0 : ℤ) : ℚ)) ≤ q by exact_mod_cast h)
  rwa [rne_intCast] at this

theorem natLenAux_spec :
    ∀ f n, 1 ≤ n → n ≤ f →
      10 ^ (natLenAux f n - 1) ≤ n ∧ n < 10 ^ natLenAux f n := by
  intro f
  induction f with
  | zero => intro n h1 h2; omega
  | succ f ih =>
    intro n h1 h2
    by_cases h : n < 10
    · simp only [natLenAux, if_pos h]
      exact ⟨by simpa using h1, by simpa using h⟩
    · simp only [natLenAux, if_neg h]
      have hd : 1 ≤ n / 10 := by omega
      have hf : n / 10 ≤ f := by omega
      obtain ⟨hL1, hL2⟩ := ih (n / 10) hd hf
      set L := natLenAux f (n / 10) with hL
      have hLpos : 1 ≤ L := by
        by_contra hc
        have : L = 0 := by omega
        rw [this] at hL2
        omega
      constructor
      · have h10 : 10 ^ (L - 1) * 10 ≤ (n / 10) * 10 :=
          Nat.mul_le_mul_right 10 hL1
        have heq : 10 ^ (L - 1) * 10 = 10 ^ L := by
          have : L - 1 + 1 = L := by omega
          calc 10 ^ (L - 1) * 10 = 10 ^ (L - 1 + 1) := by ring
          _ = 10 ^ L := by rw [this]
        have hdm : (n / 10) * 10 ≤ n := by omega
        have : 10 ^ (L + 1 - 1) = 10 ^ L := by norm_num
        rw [this]
        omega
      · have h10 : (n / 10 + 1) * 10 ≤ 10 ^ L * 10 := by
          have : n / 10 + 1 ≤ 10 ^ L := hL2
          exact Nat.mul_le_mul_right 10 this
        have heq : 10 ^ L * 10 = 10 ^ (L + 1) := by ring
        have : n < (n / 10 + 1) * 10 := by omega
        omega

theorem natLen_spec (n : ℕ) (h : 1 ≤ n) :
    10 ^ (natLen n - 1) ≤ n ∧ n < 10 ^ natLen n :=
  natLenAux_spec n n h le_rfl

theorem natLen_pos (n : ℕ) (h : 1 ≤ n) : 1 ≤ natLen n := by
  obtain ⟨_, h2⟩ := natLen_spec n h
  by_contra hc
  have : natLen n = 0 := by omega
  rw [this] at h2
  omega

theorem ilog10_spec {q : ℚ} (hq : 0 < q) :
    (10 : ℚ) ^ ilog10 q ≤ q ∧ q < 10 ^ (ilog10 q + 1) := by
  have hnum : 0 < q.num := Rat.num_pos.mpr hq
  have hN : 1 ≤ q.num.natAbs := by omega
  have hD : 1 ≤ q.den := q.pos
  obtain ⟨hN1, hN2⟩ := natLen_spec _ hN
  obtain ⟨hD1, hD2⟩ := natLen_spec _ hD
  set a := natLen q.num.natAbs with ha
  set b := natLen q.den with hb
  have hapos := natLen_pos _ hN
  have hbpos := natLen_pos _ hD
  -- cast the digit bounds to ℚ with ℤ exponents
  have hqeq : q = (q.num : ℚ) / (q.den : ℚ) := (Rat.num_div_den q).symm
  have hdenpos : (0 : ℚ) < (q.den : ℚ) := by exact_mod_cast hD
  have hnumq : (q.num : ℚ) = (q.num.natAbs : ℚ) := by
    rw [Int.cast_natAbs]
    rw [abs_of_pos (by exact_mod_cast hnum)]
  have cast_pow : ∀ c : ℕ, 1 ≤ c → ((10 : ℚ)) ^ ((c : ℤ) - 1) = ((10 ^ (c - 1) : ℕ) : ℚ) := by
    intro c hc
    have : (c : ℤ) - 1 = ((c - 1 : ℕ) : ℤ) := by omega
    rw [this, zpow_natCast]
    push_cast
    ring
  have cast_pow' : ∀ c : ℕ, ((10 : ℚ)) ^ ((c : ℤ)) = ((10 ^ c : ℕ) : ℚ) := by
    intro c
    rw [zpow_natCast]
    push_cast
    ring
  -- strict upper bound : q < 10 ^ (a - b + 1)
  have hub : q < (10 : ℚ) ^ ((a : ℤ) - b + 1) := by
    rw [hqeq]
    rw [div_lt_iff hdenpos]
    have h1 : (q.num : ℚ) < ((10 ^ a : ℕ) : ℚ) := by
      rw [hnumq]; exact_mod_cast hN2
    have h2 : ((10 ^ (b - 1) : ℕ) : ℚ) ≤ (q.den : ℚ) := by exact_mod_cast hD1
    have h3 : (q.num : ℚ) < ((10 ^ a : ℕ) : ℚ) * 1 := by rw [mul_one]; exact h1
    calc (q.num : ℚ) < ((10 ^ a : ℕ) : ℚ) := h1
    _ = (10 : ℚ) ^ ((a : ℤ) - b + 1) * ((10 ^ (b - 1) : ℕ) : ℚ) := by
        rw [← cast_pow' a, ← cast_pow b hbpos, ← zpow_add₀ (by norm_num : (10:ℚ) ≠ 0)]
        congr 1
        omega
    _ ≤ (10 : ℚ) ^ ((a : ℤ) - b + 1) * (q.den : ℚ) := by
        apply mul_le_mul_of_nonneg_left h2
        positivity
  -- strict lower bound : 10 ^ (a - b - 1) < q
  have hlb : (10 : ℚ) ^ ((a : ℤ) - b - 1) < q := by
    rw [hqeq]
    rw [lt_div_iff hdenpos]
    have h1 : ((10 ^ (a - 1) : ℕ) : ℚ) ≤ (q.num : ℚ) := by
      rw [hnumq]; exact_mod_cast hN1
    have h2 : (q.den : ℚ) < ((10 ^ b : ℕ) : ℚ) := by exact_mod_cast hD2
    calc (10 : ℚ) ^ ((a : ℤ) - b - 1) * (q.den : ℚ)
        < (10 : ℚ) ^ ((a : ℤ) - b - 1) * ((10 ^ b : ℕ) : ℚ) := by
          apply mul_lt_mul_of_pos_left h2
          positivity
    _ = ((10 ^ (a - 1) : ℕ) : ℚ) := by
        rw [← cast_pow' b, ← cast_pow a hapos, ← zpow_add₀ (by norm_num : (10:ℚ) ≠ 0)]
        congr 1
        omega
    _ ≤ (q.num : ℚ) := h1
  unfold ilog10
  rw [← ha, ← hb]
  split_ifs with h
  · exact ⟨h, hub⟩
  · constructor
    · calc (10 : ℚ) ^ ((a : ℤ) - b - 1) ≤ (10 : ℚ) ^ ((a : ℤ) - b - 1) := le_rfl
      _ ≤ q := le_of_lt hlb
    · have : (a : ℤ) - b - 1 + 1 = (a : ℤ) - b := by ring
      rw [this]
      exact lt_of_not_le h

theorem ilog10_unique {q : ℚ} (hq : 0 < q) (e : ℤ)
    (h1 : (10 : ℚ) ^ e ≤ q) (h2 : q < 10 ^ (e + 1)) : ilog10 q = e := by
  obtain ⟨g1, g2⟩ := ilog10_spec hq
  have ha : (10 : ℚ) ^ e < 10 ^ (ilog10 q + 1) := lt_of_le_of_lt h1 g2
  have hb : (10 : ℚ) ^ ilog10 q < 10 ^ (e + 1) := lt_of_le_of_lt g1 h2
  have h10 : (1 : ℚ) < 10 := by norm_num
  have ha' : e < ilog10 q + 1 :=
    (zpow_lt_zpow_iff_right₀ (show (1:ℚ) < 10 by norm_num)).mp ha
  have hb' : ilog10 q < e + 1 :=
    (zpow_lt_zpow_iff_right₀ (show (1:ℚ) < 10 by norm_num)).mp hb
  omega

theorem roundSig_zero (p : ℕ) : roundSig p 0 = 0 := by simp [roundSig]

theorem zpow_toNat_cast (k : ℤ) (hk : 0 ≤ k) :
    (10 : ℚ) ^ k = ((10 ^ k.toNat : ℤ) : ℚ) := by
  have h1 : ((10 ^ k.toNat : ℤ) : ℚ) = (10 : ℚ) ^ k.toNat := by push_cast; ring
  rw [h1, ← zpow_natCast (10 : ℚ) k.toNat, Int.toNat_of_nonneg hk]

theorem natPow_cast_zpow (p : ℕ) : ((10 ^ p : ℕ) : ℚ) = (10 : ℚ) ^ ((p : ℕ) : ℤ) := by
  rw [zpow_natCast]
  push_cast
  ring

theorem roundSig_of_pos {p : ℕ} {q : ℚ} (hq : 0 < q) :
    roundSig p q = roundSigPos p q := by
  rw [roundSig, if_neg (ne_of_gt hq), if_neg (not_lt.mpr (le_of_lt hq))]

theorem roundSigPos_sandwich {p : ℕ} {q : ℚ} (hp : 1 ≤ p) (hq : 0 < q) :
    (10 : ℚ) ^ ilog10 q ≤ roundSigPos p q ∧
      roundSigPos p q ≤ 10 ^ (ilog10 q + 1) := by
  obtain ⟨h1, h2⟩ := ilog10_spec hq
  set e := ilog10 q with he
  have hsc : (0 : ℚ) < 10 ^ ((p : ℤ) - 1 - e) := by positivity
  have hzc : ∀ k : ℤ, 0 ≤ k → (10 : ℚ) ^ k = ((10 ^ k.toNat : ℤ) : ℚ) :=
    fun k hk => zpow_toNat_cast k hk
  -- lower bound
  have hlow : (10 : ℚ) ^ ((p : ℤ) - 1) ≤ q * 10 ^ ((p : ℤ) - 1 - e) := by
    calc (10 : ℚ) ^ ((p : ℤ) - 1) = 10 ^ e * 10 ^ ((p : ℤ) - 1 - e) := by
          rw [← zpow_add₀ (by norm_num : (10:ℚ) ≠ 0)]
          congr 1
          ring
    _ ≤ q * 10 ^ ((p : ℤ) - 1 - e) := by
          apply mul_le_mul_of_nonneg_right h1 (le_of_lt hsc)
  have hhigh : q * 10 ^ ((p : ℤ) - 1 - e) ≤ 10 ^ (p : ℤ) := by
    calc q * 10 ^ ((p : ℤ) - 1 - e) ≤ 10 ^ (e + 1) * 10 ^ ((p : ℤ) - 1 - e) := by
          apply mul_le_mul_of_nonneg_right (le_of_lt h2) (le_of_lt hsc)
    _ = 10 ^ (p : ℤ) := by
          rw [← zpow_add₀ (by norm_num : (10:ℚ) ≠ 0)]
          congr 1
          ring
  have hm1 : ((10 ^ ((p : ℤ) - 1).toNat : ℤ) : ℚ) ≤ q * 10 ^ ((p : ℤ) - 1 - e) := by
    rw [← hzc _ (by omega : (0:ℤ) ≤ (p : ℤ) - 1)]
    exact hlow
  have hm2 : q * 10 ^ ((p : ℤ) - 1 - e) ≤ ((10 ^ (p : ℤ).toNat : ℤ) : ℚ) := by
    rw [← hzc _ (by omega : (0:ℤ) ≤ (p : ℤ))]
    exact hhigh
  have hr1 : (10 : ℤ) ^ ((p : ℤ) - 1).toNat ≤ rne (q * 10 ^ ((p : ℤ) - 1 - e)) := by
    have := rne_mono hm1
    rwa [rne_intCast] at this
  have hr2 : rne (q * 10 ^ ((p : ℤ) - 1 - e)) ≤ (10 : ℤ) ^ (p : ℤ).toNat := by
    have := rne_mono hm2
    rwa [rne_intCast] at this
  have hpose : (0 : ℚ) < 10 ^ (e + 1 - (p : ℤ)) := by positivity
  constructor
  · unfold roundSigPos
    rw [← he]
    have : ((10 ^ ((p : ℤ) - 1).toNat : ℤ) : ℚ) * 10 ^ (e + 1 - (p : ℤ)) ≤
        (rne (q * 10 ^ ((p : ℤ) - 1 - e)) : ℚ) * 10 ^ (e + 1 - (p : ℤ)) := by
      apply mul_le_mul_of_nonneg_right _ (le_of_lt hpose)
      exact_mod_cast hr1
    calc (10 : ℚ) ^ e = ((10 ^ ((p : ℤ) - 1).toNat : ℤ) : ℚ) * 10 ^ (e + 1 - (p : ℤ)) := by
          rw [← hzc _ (by omega : (0:ℤ) ≤ (p : ℤ) - 1),
            ← zpow_add₀ (by norm_num : (10:ℚ) ≠ 0)]
          congr 1
          omega
    _ ≤ _ := this
  · unfold roundSigPos
    rw [← he]
    have : (rne (q * 10 ^ ((p : ℤ) - 1 - e)) : ℚ) * 10 ^ (e + 1 - (p : ℤ)) ≤
        ((10 ^ (p : ℤ).toNat : ℤ) : ℚ) * 10 ^ (e + 1 - (p : ℤ)) := by
      apply mul_le_mul_of_nonneg_right _ (le_of_lt hpose)
      exact_mod_cast hr2
    calc (rne (q * 10 ^ ((p : ℤ) - 1 - e)) : ℚ) * 10 ^ (e + 1 - (p : ℤ)) ≤
        ((10 ^ (p : ℤ).toNat : ℤ) : ℚ) * 10 ^ (e + 1 - (p : ℤ)) := this
    _ = (10 : ℚ) ^ (e + 1) := by
          rw [← hzc _ (by omega : (0:ℤ) ≤ (p : ℤ)),
            ← zpow_add₀ (by norm_num : (10:ℚ) ≠ 0)]
          congr 1
          omega

theorem roundSig_pos {p : ℕ} {q : ℚ} (hp : 1 ≤ p) (hq : 0 < q) :
    0 < roundSig p q := by
  rw [roundSig_of_pos hq]
  have := (roundSigPos_sandwich hp hq).1
  have h10 : (0 : ℚ) < 10 ^ ilog10 q := by positivity
  linarith

theorem roundSig_nonneg {p : ℕ} {q : ℚ} (hp : 1 ≤ p) (hq : 0 ≤ q) :
    0 ≤ roundSig p q := by
  rcases eq_or_lt_of_le hq with h | h
  · rw [← h, roundSig_zero]
  · exact le_of_lt (roundSig_pos hp h)

theorem roundSig_mono {p : ℕ} {q r : ℚ} (hp : 1 ≤ p) (hq : 0 ≤ q)
    (h : q ≤ r) : roundSig p q ≤ roundSig p r := by
  rcases eq_or_lt_of_le hq with h0 | h0
  · rw [← h0, roundSig_zero]
    exact roundSig_nonneg hp (le_trans hq h)
  · have hr : 0 < r := lt_of_lt_of_le h0 h
    rw [roundSig_of_pos h0, roundSig_of_pos hr]
    obtain ⟨hq1, hq2⟩ := ilog10_spec h0
    obtain ⟨hr1, hr2⟩ := ilog10_spec hr
    have hee : ilog10 q ≤ ilog10 r := by
      have : (10:ℚ) ^ ilog10 q < 10 ^ (ilog10 r + 1) :=
        lt_of_le_of_lt (le_trans hq1 h) hr2
      have := (zpow_lt_zpow_iff_right₀ (show (1:ℚ) < 10 by norm_num)).mp this
      omega
    rcases eq_or_lt_of_le hee with hee' | hee'
    · unfold roundSigPos
      rw [← hee']
      apply mul_le_mul_of_nonneg_right _ (by positivity)
      have : q * 10 ^ ((p : ℤ) - 1 - ilog10 q) ≤ r * 10 ^ ((p : ℤ) - 1 - ilog10 q) := by
        apply mul_le_mul_of_nonneg_right h (by positivity)
      exact_mod_cast rne_mono this
    · calc roundSigPos p q ≤ 10 ^ (ilog10 q + 1) := (roundSigPos_sandwich hp h0).2
      _ ≤ 10 ^ ilog10 r := by
          apply zpow_le_zpow_right₀ (by norm_num : (1:ℚ) ≤ 10)
          omega
      _ ≤ roundSigPos p r := (roundSigPos_sandwich hp hr).1

theorem roundSig_pow10 {p : ℕ} (hp : 1 ≤ p) (u : ℤ) :
    roundSig p ((10 : ℚ) ^ u) = 10 ^ u := by
  have hq : (0 : ℚ) < 10 ^ u := by positivity
  rw [roundSig_of_pos hq]
  have hil : ilog10 ((10 : ℚ) ^ u) = u := by
    apply ilog10_unique hq
    · exact le_rfl
    · exact zpow_lt_zpow_right₀ (by norm_num) (by omega)
  unfold roundSigPos
  rw [hil, ← zpow_add₀ (by norm_num : (10:ℚ) ≠ 0)]
  have he : u + ((p : ℤ) - 1 - u) = (p : ℤ) - 1 := by ring
  rw [he]
  have hcast : (10 : ℚ) ^ ((p : ℤ) - 1) = (((10 : ℤ) ^ ((p : ℤ) - 1).toNat : ℤ) : ℚ) :=
    zpow_toNat_cast _ (by omega)
  rw [hcast, rne_intCast, ← hcast, ← zpow_add₀ (by norm_num : (10:ℚ) ≠ 0)]
  congr 1
  ring

theorem roundSig_eq_self {p : ℕ} (hp : 1 ≤ p) {m : ℕ} (t : ℤ)
    (hm : m ≤ 10 ^ p) : roundSig p ((m : ℚ) * 10 ^ t) = (m : ℚ) * 10 ^ t := by
  rcases Nat.eq_zero_or_pos m with hm0 | hm0
  · subst hm0
    simp [roundSig_zero]
  rcases eq_or_lt_of_le hm with hmeq | hmlt
  · -- m = 10 ^ p : the value is a power of ten
    rw [hmeq]
    have : ((10 ^ p : ℕ) : ℚ) * 10 ^ t = 10 ^ ((p : ℤ) + t) := by
      rw [zpow_add₀ (by norm_num : (10:ℚ) ≠ 0), natPow_cast_zpow]
    rw [this, roundSig_pow10 hp]
  · have hq : (0 : ℚ) < (m : ℚ) * 10 ^ t := by positivity
    rw [roundSig_of_pos hq]
    set e := ilog10 ((m : ℚ) * 10 ^ t) with he
    obtain ⟨h1, h2⟩ := ilog10_spec hq
    -- e ≤ t + p - 1 so the scaled value is an integer
    have hub : (m : ℚ) * 10 ^ t < 10 ^ ((p : ℤ) + t) := by
      rw [zpow_add₀ (by norm_num : (10:ℚ) ≠ 0)]
      apply mul_lt_mul_of_pos_right _ (by positivity)
      calc (m : ℚ) < ((10 ^ p : ℕ) : ℚ) := by exact_mod_cast hmlt
      _ = (10 : ℚ) ^ ((p : ℕ) : ℤ) := natPow_cast_zpow p
    have hee : e < (p : ℤ) + t := by
      have : (10:ℚ) ^ e < 10 ^ ((p : ℤ) + t) := lt_of_le_of_lt h1 hub
      exact (zpow_lt_zpow_iff_right₀ (show (1:ℚ) < 10 by norm_num)).mp this
    have hexp : (0 : ℤ) ≤ t + ((p : ℤ) - 1 - e) := by omega
    have hint : (m : ℚ) * 10 ^ t * 10 ^ ((p : ℤ) - 1 - e) =
        (((m : ℤ) * 10 ^ (t + ((p : ℤ) - 1 - e)).toNat : ℤ) : ℚ) := by
      rw [mul_assoc, ← zpow_add₀ (by norm_num : (10:ℚ) ≠ 0)]
      push_cast
      rw [← zpow_natCast (10 : ℚ) (t + ((p : ℤ) - 1 - e)).toNat,
        Int.toNat_of_nonneg hexp]
    unfold roundSigPos
    rw [← he, hint, rne_intCast, ← hint]
    rw [mul_assoc, mul_assoc, ← zpow_add₀ (by norm_num : (10:ℚ) ≠ 0)]
    have : (p : ℤ) - 1 - e + (e + 1 - (p : ℤ)) = 0 := by ring
    rw [this, zpow_zero, mul_one]

theorem roundSig_repr {p : ℕ} (hp : 1 ≤ p) {q : ℚ} (hq : 0 < q) :
    ∃ m : ℕ, m ≤ 10 ^ p ∧ roundSig p q = (m : ℚ) * 10 ^ (ilog10 q + 1 - (p : ℤ)) := by
  obtain ⟨h1, h2⟩ := ilog10_spec hq
  set e := ilog10 q with he
  have hnn : 0 ≤ q * 10 ^ ((p : ℤ) - 1 - e) := by positivity
  have hub : q * 10 ^ ((p : ℤ) - 1 - e) ≤ ((10 ^ p : ℕ) : ℚ) := by
    calc q * 10 ^ ((p : ℤ) - 1 - e) ≤ 10 ^ (e + 1) * 10 ^ ((p : ℤ) - 1 - e) := by
          apply mul_le_mul_of_nonneg_right (le_of_lt h2) (by positivity)
    _ = (10 : ℚ) ^ ((p : ℕ) : ℤ) := by
          rw [← zpow_add₀ (by norm_num : (10:ℚ) ≠ 0)]
          congr 1
          ring
    _ = ((10 ^ p : ℕ) : ℚ) := (natPow_cast_zpow p).symm
  have hr0 : 0 ≤ rne (q * 10 ^ ((p : ℤ) - 1 - e)) := rne_nonneg hnn
  have hrub : rne (q * 10 ^ ((p : ℤ) - 1 - e)) ≤ (10 : ℤ) ^ p := by
    have hc : ((10 ^ p : ℕ) : ℚ) = (((10 : ℤ) ^ p : ℤ) : ℚ) := by push_cast; ring
    have := rne_mono (le_trans hub (le_of_eq hc))
    rwa [rne_intCast] at this
  refine ⟨(rne (q * 10 ^ ((p : ℤ) - 1 - e))).toNat, ?_, ?_⟩
  · have h1' : (rne (q * 10 ^ ((p : ℤ) - 1 - e))).toNat ≤ ((10 : ℤ) ^ p).toNat :=
      Int.toNat_le_toNat hrub
    have h2' : ((10 : ℤ) ^ p).toNat = 10 ^ p := by
      rw [show ((10:ℤ) ^ p) = ((10 ^ p : ℕ) : ℤ) by push_cast; ring]
      exact Int.toNat_natCast _
    rwa [h2'] at h1'
  · rw [roundSig_of_pos hq]
    unfold roundSigPos
    rw [← he]
    congr 1
    exact_mod_cast (Int.toNat_of_nonneg hr0).symm

theorem roundSig_idem {p : ℕ} (hp : 1 ≤ p) {q : ℚ} (hq : 0 ≤ q) :
    roundSig p (roundSig p q) = roundSig p q := by
  rcases eq_or_lt_of_le hq with h0 | h0
  · rw [← h0, roundSig_zero, roundSig_zero]
  · obtain ⟨m, hm, hrepr⟩ := roundSig_repr hp h0
    rw [hrepr]
    exact roundSig_eq_self hp _ hm

theorem newton_ge_sqrt (n x : ℕ) (hx : Nat.sqrt n ≤ x) (hx0 : 0 < x) :
    Nat.sqrt n ≤ (x + n / x) / 2 := by
  set s := Nat.sqrt n with hs
  have h1 : s * s ≤ n := Nat.sqrt_le n
  have h2 : s * s / x ≤ n / x := Nat.div_le_div_right h1
  have key : s * 2 ≤ x + s * s / x := by
    rcases le_or_lt (2 * s) x with hc | hc
    · exact le_trans (by omega) (Nat.le_add_right x (s * s / x))
    · have hyx : (2 * s - x) * x ≤ s * s := by
        zify [show x ≤ 2 * s by omega]
        nlinarith [sq_nonneg ((s : ℤ) - x)]
      have hq : 2 * s - x ≤ s * s / x := (Nat.le_div_iff_mul_le hx0).mpr hyx
      have : x + (2 * s - x) ≤ x + s * s / x := Nat.add_le_add_left hq x
      omega
  have h3 : x + s * s / x ≤ x + n / x := Nat.add_le_add_left h2 x
  exact (Nat.le_div_iff_mul_le (by norm_num)).mpr (le_trans key h3)

theorem isqrtAux_eq (n : ℕ) (hn : 2 ≤ n) :
    ∀ f x, Nat.sqrt n ≤ x → x ≤ f → isqrtAux n f x = Nat.sqrt n := by
  intro f
  induction f with
  | zero =>
    intro x hs hx
    have hx0 : x = 0 := by omega
    subst hx0
    have : Nat.sqrt n = 0 := by omega
    simp [isqrtAux, this]
  | succ f ih =>
    intro x hs hx
    have hx0 : 0 < x := by
      have h1 : 0 < Nat.sqrt n := Nat.sqrt_pos.mpr (by omega)
      omega
    simp only [isqrtAux]
    by_cases h : (x + n / x) / 2 < x
    · rw [if_pos h]
      exact ih ((x + n / x) / 2) (newton_ge_sqrt n x hs hx0) (by omega)
    · rw [if_neg h]
      have hxx : x * x ≤ n := by
        have : x ≤ (x + n / x) / 2 := by omega
        have h2 : x * 2 ≤ x + n / x := (Nat.le_div_iff_mul_le (by norm_num)).mp this
        have h3 : x ≤ n / x := by omega
        exact (Nat.le_div_iff_mul_le hx0).mp h3
      have : x ≤ Nat.sqrt n := Nat.le_sqrt.mpr hxx
      omega

theorem isqrt_eq (n : ℕ) : isqrt n = Nat.sqrt n := by
  unfold isqrt
  split_ifs with h
  · interval_cases n <;> rfl
  · have hn : 2 ≤ n := by omega
    apply isqrtAux_eq n hn
    · have hlt : n < (n / 2 + 2) * (n / 2 + 2) := by
        have hdm := Nat.div_add_mod n 2
        nlinarith [Nat.mod_lt n (show 0 < 2 by norm_num)]
      have := Nat.sqrt_lt.mpr hlt
      omega
    · omega

theorem sqrt2_coeff_bounds (p : ℕ) (hp : 1 ≤ p) :
    10 ^ (p - 1) ≤ sqrt2_coeff p ∧ sqrt2_coeff p ≤ 2 * 10 ^ (p - 1) := by
  have hexp : 2 * p - 2 = (p - 1) + (p - 1) := by omega
  have hlow : 10 ^ (p - 1) ≤ Nat.sqrt (2 * 10 ^ (2 * p - 2)) := by
    apply Nat.le_sqrt.mpr
    rw [hexp, pow_add]
    nlinarith [pow_pos (show 0 < 10 by norm_num) (p - 1)]
  have hhigh : Nat.sqrt (2 * 10 ^ (2 * p - 2)) < 2 * 10 ^ (p - 1) := by
    apply Nat.sqrt_lt.mpr
    rw [hexp, pow_add]
    nlinarith [pow_pos (show 0 < 10 by norm_num) (p - 1)]
  unfold sqrt2_coeff
  rw [isqrt_eq]
  split_ifs <;> omega

theorem one_le_sqrt2 {p : ℕ} (hp : 1 ≤ p) : 1 ≤ sqrt2 p := by
  obtain ⟨h1, _⟩ := sqrt2_coeff_bounds p hp
  unfold sqrt2
  have hc : ((10 ^ (p - 1) : ℕ) : ℚ) ≤ (sqrt2_coeff p : ℚ) := by exact_mod_cast h1
  have hpos : (0 : ℚ) < 10 ^ (1 - (p : ℤ)) := by positivity
  have : ((10 ^ (p - 1) : ℕ) : ℚ) * 10 ^ (1 - (p : ℤ)) ≤
      (sqrt2_coeff p : ℚ) * 10 ^ (1 - (p : ℤ)) :=
    mul_le_mul_of_nonneg_right hc (le_of_lt hpos)
  have heq : ((10 ^ (p - 1) : ℕ) : ℚ) * 10 ^ (1 - (p : ℤ)) = 1 := by
    rw [natPow_cast_zpow, ← zpow_add₀ (by norm_num : (10:ℚ) ≠ 0)]
    have : ((p - 1 : ℕ) : ℤ) + (1 - (p : ℤ)) = 0 := by omega
    rw [this, zpow_zero]
  linarith

theorem sqrt2_le_two {p : ℕ} (hp : 1 ≤ p) : sqrt2 p ≤ 2 := by
  obtain ⟨_, h2⟩ := sqrt2_coeff_bounds p hp
  unfold sqrt2
  have hc : (sqrt2_coeff p : ℚ) ≤ ((2 * 10 ^ (p - 1) : ℕ) : ℚ) := by exact_mod_cast h2
  have hpos : (0 : ℚ) < 10 ^ (1 - (p : ℤ)) := by positivity
  have : (sqrt2_coeff p : ℚ) * 10 ^ (1 - (p : ℤ)) ≤
      ((2 * 10 ^ (p - 1) : ℕ) : ℚ) * 10 ^ (1 - (p : ℤ)) :=
    mul_le_mul_of_nonneg_right hc (le_of_lt hpos)
  have heq : ((2 * 10 ^ (p - 1) : ℕ) : ℚ) * 10 ^ (1 - (p : ℤ)) = 2 := by
    have h1 : ((2 * 10 ^ (p - 1) : ℕ) : ℚ) = 2 * ((10 ^ (p - 1) : ℕ) : ℚ) := by
      push_cast
      ring
    rw [h1, mul_assoc, natPow_cast_zpow, ← zpow_add₀ (by norm_num : (10:ℚ) ≠ 0)]
    have h2 : ((p - 1 : ℕ) : ℤ) + (1 - (p : ℤ)) = 0 := by omega
    rw [h2, zpow_zero, mul_one]
  linarith

theorem sqrt2_pos {p : ℕ} (hp : 1 ≤ p) : 0 < sqrt2 p :=
  lt_of_lt_of_le one_pos (one_le_sqrt2 hp)

theorem roundSig_natCast {p : ℕ} (hp : 1 ≤ p) (m : ℕ) (hm : m ≤ 10 ^ p) :
    roundSig p (m : ℚ) = m := by
  have h := roundSig_eq_self hp (0 : ℤ) hm
  simpa using h

theorem zpow_neg_nat (n : ℕ) : (10 : ℚ) ^ (-(n : ℤ)) = ((10 : ℚ) ^ n)⁻¹ := by
  rw [zpow_neg, zpow_natCast]

theorem denominator_term_pos {p : ℕ} (hp : 1 ≤ p) (k : ℕ) :
    0 < denominator_term p k := by
  unfold denominator_term powD
  apply roundSig_pos hp
  apply mul_pos
  · apply roundSig_pos hp
    have : (0 : ℚ) < ((Nat.factorial k : ℕ) : ℚ) := by
      exact_mod_cast Nat.factorial_pos k
    positivity
  · apply roundSig_pos hp
    positivity

theorem numerator_term_nonneg {p : ℕ} (hp : 1 ≤ p) (k : ℕ) :
    0 ≤ numerator_term p k := by
  unfold numerator_term
  apply roundSig_nonneg hp
  positivity

theorem current_term_nonneg {p : ℕ} (hp : 1 ≤ p) (k : ℕ) :
    0 ≤ current_term p k := by
  unfold current_term divD
  apply roundSig_nonneg hp
  exact div_nonneg (numerator_term_nonneg hp k) (le_of_lt (denominator_term_pos hp k))

theorem sum_loop_eq {p : ℕ} (hp : 1 ≤ p) (l : List ℕ) (s : ℚ) :
    sum_loop p l s = .ok (l.foldl (fun a k => addD p a (current_term p k)) s) := by
  induction l generalizing s with
  | nil => rfl
  | cons k ks ih =>
    simp only [sum_loop, List.foldl_cons]
    rw [if_neg (ne_of_gt (denominator_term_pos hp k))]
    exact ih _

theorem foldl_sum_inv {p : ℕ} (hp : 1 ≤ p) (l : List ℕ) (s : ℚ)
    (h1 : roundSig p s = s) (h2 : 0 ≤ s) :
    s ≤ l.foldl (fun a k => addD p a (current_term p k)) s ∧
      roundSig p (l.foldl (fun a k => addD p a (current_term p k)) s) =
        l.foldl (fun a k => addD p a (current_term p k)) s ∧
      0 ≤ l.foldl (fun a k => addD p a (current_term p k)) s := by
  induction l generalizing s with
  | nil => exact ⟨le_rfl, h1, h2⟩
  | cons k ks ih =>
    simp only [List.foldl_cons]
    have ht : 0 ≤ current_term p k := current_term_nonneg hp k
    have hstep : s ≤ addD p s (current_term p k) := by
      have := roundSig_mono hp h2 (le_add_of_nonneg_right ht)
      rw [h1] at this
      exact this
    have hstep2 : roundSig p (addD p s (current_term p k)) =
        addD p s (current_term p k) := by
      unfold addD
      exact roundSig_idem hp (by linarith)
    have hstep3 : 0 ≤ addD p s (current_term p k) := le_trans h2 hstep
    obtain ⟨ha, hb, hc⟩ := ih (addD p s (current_term p k)) hstep2 hstep3
    exact ⟨le_trans hstep ha, hb, hc⟩

theorem numerator_term_zero {p : ℕ} (hp : 4 ≤ p) : numerator_term p 0 = 1103 := by
  unfold numerator_term
  have h1 : ((Nat.factorial (4 * 0) : ℕ) : ℚ) = 1 := by norm_num [Nat.factorial]
  have h2 : (((1103 + 26390 * 0 : ℕ) : ℕ) : ℚ) = ((1103 : ℕ) : ℚ) := by norm_num
  rw [h1, h2]
  unfold mulD
  rw [one_mul]
  have hb : (1103 : ℕ) ≤ 10 ^ p := by
    calc (1103 : ℕ) ≤ 10 ^ 4 := by norm_num
    _ ≤ 10 ^ p := Nat.pow_le_pow_right (by norm_num) hp
  have := roundSig_natCast (by omega : 1 ≤ p) 1103 hb
  simpa using this

theorem denominator_term_zero {p : ℕ} (hp : 1 ≤ p) : denominator_term p 0 = 1 := by
  unfold denominator_term powD
  have h1 : ((Nat.factorial 0 : ℕ) : ℚ) = 1 := by norm_num [Nat.factorial]
  rw [h1]
  have hone : roundSig p ((1 : ℚ)) = 1 := by
    have := roundSig_natCast hp 1 (Nat.one_le_two_pow.trans
      (by exact Nat.pow_le_pow_left (by norm_num) p))
    simpa using this
  have h2 : roundSig p ((1 : ℚ) ^ 4) = 1 := by
    rw [one_pow]
    exact hone
  have h3 : roundSig p ((396 : ℚ) ^ (4 * 0)) = 1 := by
    norm_num
    exact hone
  rw [h2, h3]
  unfold mulD
  rw [one_mul]
  exact hone

theorem current_term_zero {p : ℕ} (hp : 4 ≤ p) : current_term p 0 = 1103 := by
  unfold current_term divD
  rw [numerator_term_zero hp, denominator_term_zero (by omega), div_one]
  have hb : (1103 : ℕ) ≤ 10 ^ p := by
    calc (1103 : ℕ) ≤ 10 ^ 4 := by norm_num
    _ ≤ 10 ^ p := Nat.pow_le_pow_right (by norm_num) hp
  have := roundSig_natCast (by omega : 1 ≤ p) 1103 hb
  simpa using this

theorem sum_val_bounds {p n : ℕ} (hp : 4 ≤ p) (hn : 1 ≤ n) :
    1103 ≤ sum_val p n ∧ roundSig p (sum_val p n) = sum_val p n := by
  have hp1 : 1 ≤ p := by omega
  obtain ⟨m, rfl⟩ : ∃ m, n = m + 1 := ⟨n - 1, by omega⟩
  unfold sum_val
  rw [List.range_succ_eq_map, List.foldl_cons]
  have hfirst : addD p 0 (current_term p 0) = 1103 := by
    unfold addD
    rw [current_term_zero hp, zero_add]
    have hb : (1103 : ℕ) ≤ 10 ^ p := by
      calc (1103 : ℕ) ≤ 10 ^ 4 := by norm_num
      _ ≤ 10 ^ p := Nat.pow_le_pow_right (by norm_num) hp
    have := roundSig_natCast hp1 1103 hb
    simpa using this
  rw [hfirst]
  have h1103 : roundSig p ((1103 : ℚ)) = 1103 := by
    have hb : (1103 : ℕ) ≤ 10 ^ p := by
      calc (1103 : ℕ) ≤ 10 ^ 4 := by norm_num
      _ ≤ 10 ^ p := Nat.pow_le_pow_right (by norm_num) hp
    have := roundSig_natCast hp1 1103 hb
    simpa using this
  obtain ⟨ha, hb, _⟩ :=
    foldl_sum_inv hp1 ((List.range m).map Nat.succ) 1103 h1103 (by norm_num)
  exact ⟨ha, hb⟩

theorem roundSig_two (p : ℕ) (hp : 1 ≤ p) : roundSig p (2 : ℚ) = 2 := by
  have hb : (2 : ℕ) ≤ 10 ^ p := by
    calc (2 : ℕ) ≤ 10 ^ 1 := by norm_num
    _ ≤ 10 ^ p := Nat.pow_le_pow_right (by norm_num) hp
  have := roundSig_natCast hp 2 hb
  simpa using this

theorem roundSig_four (p : ℕ) (hp : 1 ≤ p) : roundSig p (4 : ℚ) = 4 := by
  have hb : (4 : ℕ) ≤ 10 ^ p := by
    calc (4 : ℕ) ≤ 10 ^ 1 := by norm_num
    _ ≤ 10 ^ p := Nat.pow_le_pow_right (by norm_num) hp
  have := roundSig_natCast hp 4 hb
  simpa using this

theorem constant_multiplier_bounds {p : ℕ} (hp : 1 ≤ p) :
    (10 : ℚ) ^ (-(4 : ℤ)) ≤ constant_multiplier p ∧
      constant_multiplier p ≤ (10 : ℚ) ^ (-(3 : ℤ)) := by
  have hs1 := one_le_sqrt2 hp
  have hs2 := sqrt2_le_two hp
  set x := mulD p 2 (sqrt2 p) with hx
  have hx2 : 2 ≤ x := by
    have h1 : (2 : ℚ) ≤ 2 * sqrt2 p := by linarith
    have := roundSig_mono hp (by norm_num : (0:ℚ) ≤ 2) h1
    rw [roundSig_two p hp] at this
    exact this
  have hx4 : x ≤ 4 := by
    have h1 : 2 * sqrt2 p ≤ 4 := by linarith
    have := roundSig_mono hp (by linarith : (0:ℚ) ≤ 2 * sqrt2 p) h1
    rw [roundSig_four p hp] at this
    exact this
  have hil2 : ilog10 ((2 : ℚ) / 9801) = -4 := by
    apply ilog10_unique (by norm_num)
    · rw [show (-4 : ℤ) = -((4 : ℕ) : ℤ) by norm_num, zpow_neg_nat]
      norm_num
    · rw [show (-4 + 1 : ℤ) = -((3 : ℕ) : ℤ) by norm_num, zpow_neg_nat]
      norm_num
  have hil4 : ilog10 ((4 : ℚ) / 9801) = -4 := by
    apply ilog10_unique (by norm_num)
    · rw [show (-4 : ℤ) = -((4 : ℕ) : ℤ) by norm_num, zpow_neg_nat]
      norm_num
    · rw [show (-4 + 1 : ℤ) = -((3 : ℕ) : ℤ) by norm_num, zpow_neg_nat]
      norm_num
  have hCdef : constant_multiplier p = roundSig p (x / 9801) := by
    unfold constant_multiplier divD
    rw [← hx]
  constructor
  · have h1 : roundSig p ((2 : ℚ) / 9801) ≤ roundSig p (x / 9801) :=
      roundSig_mono hp (by norm_num)
        ((div_le_div_iff_of_pos_right (by norm_num : (0:ℚ) < 9801)).mpr hx2)
    have h2 : (10 : ℚ) ^ (-(4 : ℤ)) ≤ roundSig p ((2 : ℚ) / 9801) := by
      rw [roundSig_of_pos (by norm_num : (0:ℚ) < 2 / 9801)]
      have h := (roundSigPos_sandwich hp (by norm_num : (0:ℚ) < 2 / 9801)).1
      rwa [hil2] at h
    rw [hCdef]
    exact le_trans h2 h1
  · have h1 : roundSig p (x / 9801) ≤ roundSig p ((4 : ℚ) / 9801) :=
      roundSig_mono hp (div_nonneg (by linarith) (by norm_num))
        ((div_le_div_iff_of_pos_right (by norm_num : (0:ℚ) < 9801)).mpr hx4)
    have h2 : roundSig p ((4 : ℚ) / 9801) ≤ (10 : ℚ) ^ (-(3 : ℤ)) := by
      rw [roundSig_of_pos (by norm_num : (0:ℚ) < 4 / 9801)]
      have h := (roundSigPos_sandwich hp (by norm_num : (0:ℚ) < 4 / 9801)).2
      rw [hil4] at h
      have he : (-4 : ℤ) + 1 = -3 := by norm_num
      rwa [he] at h
    rw [hCdef]
    exact le_trans h1 h2

theorem one_over_pi_ge {p n : ℕ} (hp : 4 ≤ p) (hn : 1 ≤ n) :
    (10 : ℚ) ^ (-(1 : ℤ)) ≤ one_over_pi p n := by
  have hp1 : 1 ≤ p := by omega
  obtain ⟨hC, _⟩ := constant_multiplier_bounds hp1
  obtain ⟨hS, _⟩ := sum_val_bounds hp hn
  have hCpos : (0 : ℚ) < constant_multiplier p := by
    have : (0 : ℚ) < 10 ^ (-(4 : ℤ)) := by positivity
    linarith
  have hprod : (10 : ℚ) ^ (-(1 : ℤ)) ≤ constant_multiplier p * sum_val p n := by
    have h1 : (10 : ℚ) ^ (-(4 : ℤ)) * 1103 ≤ constant_multiplier p * sum_val p n := by
      apply mul_le_mul hC hS (by norm_num) (le_of_lt hCpos)
    have h2 : (10 : ℚ) ^ (-(1 : ℤ)) ≤ (10 : ℚ) ^ (-(4 : ℤ)) * 1103 := by
      rw [show (-(4) : ℤ) = -((4:ℕ) : ℤ) by norm_num, zpow_neg_nat,
        show (-(1) : ℤ) = -((1:ℕ) : ℤ) by norm_num, zpow_neg_nat]
      norm_num
    linarith
  unfold one_over_pi mulD
  have := roundSig_mono hp1 (by positivity : (0:ℚ) ≤ (10:ℚ) ^ (-(1:ℤ))) hprod
  rwa [roundSig_pow10 hp1] at this

theorem one_over_pi_pos {p n : ℕ} (hp : 4 ≤ p) (hn : 1 ≤ n) :
    0 < one_over_pi p n := by
  have := one_over_pi_ge hp hn
  have h : (0 : ℚ) < 10 ^ (-(1 : ℤ)) := by positivity
  linarith

theorem pi_approx_bounds {p n : ℕ} (hp : 4 ≤ p) (hn : 1 ≤ n) :
    0 < pi_approx p n ∧ pi_approx p n ≤ 10 := by
  have hp1 : 1 ≤ p := by omega
  have hov := one_over_pi_ge hp hn
  have hovpos := one_over_pi_pos hp hn
  have hten : (10 : ℚ) ^ (-(1 : ℤ)) = 1 / 10 := by
    rw [show (-(1) : ℤ) = -((1:ℕ) : ℤ) by norm_num, zpow_neg_nat]
    norm_num
  rw [hten] at hov
  have hinv : (1 : ℚ) / one_over_pi p n ≤ 10 := by
    rw [div_le_iff hovpos]
    linarith
  have hinvpos : (0 : ℚ) < 1 / one_over_pi p n := by positivity
  constructor
  · unfold pi_approx divD
    exact roundSig_pos hp1 hinvpos
  · unfold pi_approx divD
    have h10 : roundSig p ((10 : ℚ) ^ ((1 : ℕ) : ℤ)) = (10 : ℚ) ^ ((1 : ℕ) : ℤ) :=
      roundSig_pow10 hp1 _
    have h10' : ((10 : ℚ) ^ ((1 : ℕ) : ℤ)) = 10 := by norm_num
    have hinv' : (1 : ℚ) / one_over_pi p n ≤ (10 : ℚ) ^ ((1 : ℕ) : ℤ) := by
      rw [h10']
      exact hinv
    have hmono := roundSig_mono hp1 (le_of_lt hinvpos) hinv'
    rw [h10, h10'] at hmono
    exact hmono

/-- Evaluation of `calculate_pi_ramanujan` on valid arguments: the guards
never fire and the result is the half-even quantization of `pi_approx` at
`precision` fractional digits, with exponent `-precision`. -/
theorem calculate_eq (iterations precision : ℤ)
    (hit : 1 ≤ iterations) (hpr : 1 ≤ precision) :
    calculate_pi_ramanujan iterations precision =
      .ok ⟨rne (pi_approx (precision + 10).toNat iterations.toNat *
        10 ^ precision), -precision⟩ := by
  have hp4 : 4 ≤ (precision + 10).toNat := by omega
  have hp1 : 1 ≤ (precision + 10).toNat := by omega
  have hn1 : 1 ≤ iterations.toNat := by omega
  set p := (precision + 10).toNat with hpdef
  unfold calculate_pi_ramanujan
  rw [if_neg (by omega : ¬ precision + 10 ≤ 0)]
  rw [← hpdef, sum_loop_eq hp1]
  have hsum : (List.range iterations.toNat).foldl
      (fun a k => addD p a (current_term p k)) 0 = sum_val p iterations.toNat := rfl
  rw [hsum]
  simp only []
  have hovne : mulD p (constant_multiplier p) (sum_val p iterations.toNat) ≠ 0 := by
    have : mulD p (constant_multiplier p) (sum_val p iterations.toNat) =
        one_over_pi p iterations.toNat := rfl
    rw [this]
    exact ne_of_gt (one_over_pi_pos hp4 hn1)
  rw [if_neg hovne]
  have hpa : divD p 1 (mulD p (constant_multiplier p) (sum_val p iterations.toNat)) =
      pi_approx p iterations.toNat := rfl
  rw [hpa]
  unfold quantD
  obtain ⟨hpos, hle⟩ := pi_approx_bounds hp4 hn1
  have hqnn : 0 ≤ pi_approx p iterations.toNat * 10 ^ precision := by
    have : (0:ℚ) < 10 ^ precision := by positivity
    positivity
  have hrnn : 0 ≤ rne (pi_approx p iterations.toNat * 10 ^ precision) := rne_nonneg hqnn
  have hub : pi_approx p iterations.toNat * 10 ^ precision ≤ 10 ^ (precision + 1) := by
    have h1 : pi_approx p iterations.toNat * 10 ^ precision ≤ 10 * 10 ^ precision := by
      apply mul_le_mul_of_nonneg_right hle (by positivity)
    have h2 : (10 : ℚ) * 10 ^ precision = 10 ^ (precision + 1) := by
      rw [zpow_add₀ (by norm_num : (10:ℚ) ≠ 0), zpow_one]
      ring
    linarith [h2 ▸ h1]
  have hcast : (10 : ℚ) ^ (precision + 1) = ((10 ^ (precision + 1).toNat : ℤ) : ℚ) :=
    zpow_toNat_cast _ (by omega)
  have hrub : rne (pi_approx p iterations.toNat * 10 ^ precision) ≤
      10 ^ (precision + 1).toNat := by
    have := rne_mono (le_trans hub (le_of_eq hcast))
    rwa [rne_intCast] at this
  have hlt : (rne (pi_approx p iterations.toNat * 10 ^ precision)).natAbs < 10 ^ p := by
    have h2 : ((10 : ℤ) ^ (precision + 1).toNat) =
        ((10 ^ (precision + 1).toNat : ℕ) : ℤ) := by
      push_cast
      ring
    rw [h2] at hrub
    have h3 : (10 : ℕ) ^ (precision + 1).toNat < 10 ^ p := by
      apply Nat.pow_lt_pow_right (by norm_num)
      omega
    omega
  rw [if_neg (by omega)]

/-- Claim C2, counterexample: `compute(5, 0)` does not fail with
`InvalidArgument`; it returns normally with the value `3` (the context
precision becomes `0 + 10 = 10`, the loop runs, and quantizing to
`1e-0` succeeds), so the core performs no input validation at all. -/
theorem claim_C2_counterexample :
    calculate_pi_ramanujan 5 0 = .ok ⟨3, 0⟩ := by
  with_unfolding_all rfl

/-- Claim C2, amended: the core performs no input validation and never
raises an `InvalidArgument`-style error.  For `iterations ≤ 0` (and any
`precision ≥ 1`) the empty summation gives a zero reciprocal divisor and
the call fails with `decimal.DivisionByZero`; for `precision < 1` with
positive `iterations` (e.g. `compute(5, 0)`) the call succeeds, returning
the value quantized at `10^(-precision)`.  Inputs are never clamped. -/
theorem claim_C2_amended :
    (∀ iterations precision : ℤ, iterations ≤ 0 → 1 ≤ precision →
      calculate_pi_ramanujan iterations precision = .error .DivisionByZero) ∧
    calculate_pi_ramanujan 5 0 = .ok ⟨3, 0⟩ ∧
    calculate_pi_ramanujan (-1) 10 = .error .DivisionByZero := by
  refine ⟨?_, by with_unfolding_all rfl, by with_unfolding_all rfl⟩
  intro iterations precision hit hpr
  unfold calculate_pi_ramanujan
  rw [if_neg (by omega : ¬ precision + 10 ≤ 0)]
  have h0 : iterations.toNat = 0 := by omega
  rw [h0]
  simp only [List.range_zero, sum_loop]
  have hz : mulD (precision + 10).toNat
      (constant_multiplier (precision + 10).toNat) 0 = 0 := by
    unfold mulD
    rw [mul_zero, roundSig_zero]
  rw [if_pos hz]

/-- Claim C2, witness: the amended statement applied at `compute(0, 50)`. -/
theorem claim_C2_witness :
    (0 : ℤ) ≤ 0 ∧ (1 : ℤ) ≤ 50 ∧
      calculate_pi_ramanujan 0 50 = .error .DivisionByZero :=
  ⟨le_rfl, by norm_num, claim_C2_amended.1 0 50 le_rfl (by norm_num)⟩

/-- Claim C3, counterexample: `compute(1, 10)` is not `3.1415926536`.
One term of Ramanujan's series gives `9801/(2206·√2) = 3.14159273001…`,
which is only correct to 6 fractional digits; quantized at 10 fractional
digits the code returns `3.1415927300`. -/
theorem claim_C3_counterexample :
    calculate_pi_ramanujan 1 10 ≠ .ok ⟨31415926536, -10⟩ := by
  intro h
  rw [(by with_unfolding_all rfl :
    calculate_pi_ramanujan 1 10 = Except.ok ⟨31415927300, -10⟩)] at h
  have h2 : (31415927300 : ℤ) = 31415926536 := congrArg Dec.man (Except.ok.inj h)
  norm_num at h2

/-- Claim C3, amended: `compute(1, 10)` returns exactly the decimal value
`3.1415927300` (coefficient `31415927300`, exponent `-10`), the one-term
Ramanujan approximation rounded at the 10th fractional digit; it agrees
with π only through the 7th fractional digit, not the 10th. -/
theorem claim_C3_amended :
    calculate_pi_ramanujan 1 10 = .ok ⟨31415927300, -10⟩ := by
  with_unfolding_all rfl

/-- Claim C4, counterexample: with the process-wide context precision at
its CPython default `28` before the call, `compute(1, 5)` leaves it at
`15`, not `28`: the working precision leaks out of the call. -/
theorem claim_C4_counterexample :
    (calculate_pi_ramanujan_st 28 1 5).2 ≠ 28 := by
  intro h
  rw [(by with_unfolding_all rfl :
    (calculate_pi_ramanujan_st 28 1 5).2 = 15)] at h
  norm_num at h

/-- Claim C4, amended: the arithmetic context is never discarded or
reset — `getcontext().prec = precision + 10` (line 21) survives the call:
after any call with `precision ≥ 1` (whatever the prior value `g` and the
iteration count), the process-wide precision equals `precision + 10`. -/
theorem claim_C4_amended (g iterations precision : ℤ) (h : 1 ≤ precision) :
    (calculate_pi_ramanujan_st g iterations precision).2 = precision + 10 := by
  unfold calculate_pi_ramanujan_st
  rw [if_neg (by omega)]

/-- Claim C4, witness: the amended statement at `g = 28`, `compute(1, 5)`. -/
theorem claim_C4_witness :
    (1 : ℤ) ≤ 5 ∧ (calculate_pi_ramanujan_st 28 1 5).2 = 5 + 10 :=
  ⟨by norm_num, claim_C4_amended 28 1 5 (by norm_num)⟩

/-- Claim C5 (confirmed): for every `iterations ≥ 1` and `precision ≥ 1`
the call returns normally and the decimal exponent of the result is exactly
`-precision` — the value carries exactly `precision` fractional digits,
trailing zeros included. -/
theorem claim_C5_precision_contract (iterations precision : ℤ)
    (hit : 1 ≤ iterations) (hpr : 1 ≤ precision) :
    (calculate_pi_ramanujan iterations precision).map Dec.exp =
      Except.ok (-precision) := by
  rw [calculate_eq iterations precision hit hpr]
  rfl

/-- Claim C5, witness at `compute(1, 1)`. -/
theorem claim_C5_witness :
    (1 : ℤ) ≤ 1 ∧ (1 : ℤ) ≤ 1 ∧
      (calculate_pi_ramanujan 1 1).map Dec.exp = Except.ok (-1) :=
  ⟨le_rfl, le_rfl, claim_C5_precision_contract 1 1 le_rfl le_rfl⟩

/-- Claim C6 (confirmed): for valid arguments the returned value is
exactly the round-half-even quantization of the unrounded approximation
`pi_approx` at `precision` fractional digits (`rne` is round-half-even,
the default rounding of the decimal context, which the program never
changes). -/
theorem claim_C6_round_half_even (iterations precision : ℤ)
    (hit : 1 ≤ iterations) (hpr : 1 ≤ precision) :
    calculate_pi_ramanujan iterations precision =
      .ok ⟨rne (pi_approx (precision + 10).toNat iterations.toNat *
        10 ^ precision), -precision⟩ :=
  calculate_eq iterations precision hit hpr

/-- Claim C6, witness at `compute(1, 1)`. -/
theorem claim_C6_witness :
    (1 : ℤ) ≤ 1 ∧ (1 : ℤ) ≤ 1 ∧
      calculate_pi_ramanujan 1 1 =
        .ok ⟨rne (pi_approx ((1 : ℤ) + 10).toNat (1 : ℤ).toNat *
          10 ^ (1 : ℤ)), -(1 : ℤ)⟩ :=
  ⟨le_rfl, le_rfl, claim_C6_round_half_even 1 1 le_rfl le_rfl⟩

/-- Claim C8 (confirmed): `compute(1, 50)` truncated to its first 30
fractional digits equals `compute(1, 30)` — here even exactly, with no
last-digit rounding discrepancy: dropping the last 20 digits of the
50-digit coefficient (integer division by `10^20`) yields the 30-digit
coefficient. -/
theorem claim_C8_rounding_stability :
    calculate_pi_ramanujan 1 50 =
      .ok ⟨314159273001330566031399618902521551859958160711003, -50⟩ ∧
    calculate_pi_ramanujan 1 30 =
      .ok ⟨3141592730013305660313996189025, -30⟩ ∧
    (314159273001330566031399618902521551859958160711003 : ℤ) / 10 ^ 20 =
      3141592730013305660313996189025 :=
  ⟨by with_unfolding_all rfl, by with_unfolding_all rfl, by decide⟩

/-- Claim C9 (confirmed): calling the function twice with identical
arguments yields identical results.  The only mutable state, the
process-wide context precision, is overwritten with `precision + 10` at
the start of every call before any arithmetic, so the second call — run
from whatever precision the first call left behind — returns the same
result as the first, for every starting precision `g`. -/
theorem claim_C9_idempotent (g iterations precision : ℤ) :
    (calculate_pi_ramanujan_st
        ((calculate_pi_ramanujan_st g iterations precision).2)
        iterations precision).1 =
      (calculate_pi_ramanujan_st g iterations precision).1 := by
  unfold calculate_pi_ramanujan_st
  split_ifs <;> rfl

/-- Claim C10 (confirmed): for valid arguments no division in the call has
a zero divisor: every `denominator_term` is strictly positive, the running
sum (hence `C · sum`, the divisor of the final reciprocal) is strictly
positive, and the call returns normally. -/
theorem claim_C10_no_zero_divisor (iterations precision : ℤ) (k : ℕ)
    (hit : 1 ≤ iterations) (hpr : 1 ≤ precision) :
    0 < denominator_term (precision + 10).toNat k ∧
    0 < sum_val (precision + 10).toNat iterations.toNat ∧
    one_over_pi (precision + 10).toNat iterations.toNat ≠ 0 ∧
    returns_ok (calculate_pi_ramanujan iterations precision) = true := by
  have hp4 : 4 ≤ (precision + 10).toNat := by omega
  have hp1 : 1 ≤ (precision + 10).toNat := by omega
  have hn : 1 ≤ iterations.toNat := by omega
  refine ⟨denominator_term_pos hp1 k, ?_, ?_, ?_⟩
  · have := (sum_val_bounds hp4 hn).1
    linarith
  · exact ne_of_gt (one_over_pi_pos hp4 hn)
  · rw [calculate_eq iterations precision hit hpr]
    rfl

/-- Claim C10, witness at `compute(1, 1)`, term `k = 0`. -/
theorem claim_C10_witness :
    (1 : ℤ) ≤ 1 ∧ (1 : ℤ) ≤ 1 ∧
      (0 < denominator_term ((1 : ℤ) + 10).toNat 0 ∧
        0 < sum_val ((1 : ℤ) + 10).toNat (1 : ℤ).toNat ∧
        one_over_pi ((1 : ℤ) + 10).toNat (1 : ℤ).toNat ≠ 0 ∧
        returns_ok (calculate_pi_ramanujan 1 1) = true) :=
  ⟨le_rfl, le_rfl, claim_C10_no_zero_divisor 1 1 0 le_rfl le_rfl⟩

end PiSrc

